import Mathlib

/-!
Verification of the HYBRIDJOIN core (`hybrid_join.py`) of the WalmartDW
repository.  The join engine is embedded shallowly: Python dictionaries
become association lists (first occurrence wins on lookup, as for
`dict`), field values are modelled as strings (the code only ever
compares `str(...)` images of values), the built-in `hash` is an
arbitrary parameter `hash : String → Nat` (the code uses
`hash(key) % self.hS`), and the thread-shared state is a record
`JState` mirroring the fields of class `HybridJoin`.  Two ghost fields
(`nextId`, `emittedIds`) tag each admitted stream tuple with a fresh
identity so that per-instance emission properties can be stated; they
influence nothing observable.
-/

/-- A record (Python `dict`): association list of field name to value. -/
abbrev Rec := List (String × String)

/-- First-match lookup, the semantics of `d[k]` / `d.get(k)` on a dict. -/
def recLookup : Rec → String → Option String
  | [], _ => none
  | (a, b) :: r, k => if a = k then some b else recLookup r k

/-- Join-key extraction: `str(tuple_data.get('Customer_ID', ''))`. -/
def strKey (r : Rec) : String := (recLookup r "Customer_ID").getD ""

/-- Python dict union `{**a, **b}`: the fields of `a` in order with values
overridden by `b` on collision, followed by the fields of `b` absent
from `a` (the construction of `joined_record` in `_probe_and_join`). -/
def mergeRecord (a b : Rec) : Rec :=
  a.map (fun p => match recLookup b p.1 with
    | some v => (p.1, v)
    | none => p)
    ++ b.filter (fun p => (recLookup a p.1).isNone)

/-- A hash-table bucket: the list of (ghost id, stream tuple) pairs of one
slot of `self.hash_table`. -/
abbrev Bucket := List (Nat × Rec)

/-- The hash table `self.hash_table`: association list from slot to bucket. -/
abbrev HTable := List (Nat × Bucket)

/-- Dict lookup on the hash table (`self.hash_table[slot]` when present,
`slot in self.hash_table`). -/
def htLookup : HTable → Nat → Option Bucket
  | [], _ => none
  | (a, b) :: r, s => if a = s then some b else htLookup r s

/-- Dict assignment `self.hash_table[slot] = l` (creating the slot at the
end, in insertion order, when absent — the `defaultdict` behaviour). -/
def htUpd : HTable → Nat → Bucket → HTable
  | [], s, l => [(s, l)]
  | (a, b) :: r, s, l => if a = s then (s, l) :: r else (a, b) :: htUpd r s l

/-- Dict deletion `del self.hash_table[slot]`. -/
def htDel : HTable → Nat → HTable
  | [], _ => []
  | (a, b) :: r, s => if a = s then r else (a, b) :: htDel r s

/-- Ghost ids of the tuples of one bucket. -/
def bucketIds (l : Bucket) : List Nat := l.map Prod.fst

/-- Number of stream tuples resident in the hash table. -/
def residentLen : HTable → Nat
  | [] => 0
  | (_, b) :: r => b.length + residentLen r

/-- Ghost ids of all resident stream tuples. -/
def tableIds : HTable → List Nat
  | [] => []
  | (_, b) :: r => bucketIds b ++ tableIds r

/-- Dict assignment on `self.key_queue_map` (overwrite in place). -/
def mapSet : List (String × Rec) → String → Rec → List (String × Rec)
  | [], k, v => [(k, v)]
  | (a, b) :: r, k, v => if a = k then (k, v) :: r else (a, b) :: mapSet r k v

/-- Dict deletion on `self.key_queue_map`. -/
def mapDel : List (String × Rec) → String → List (String × Rec)
  | [], _ => []
  | (a, b) :: r, k => if a = k then r else (a, b) :: mapDel r k

/-- Dict lookup on `self.key_queue_map` (`join_key in self.key_queue_map`). -/
def mapLookup : List (String × Rec) → String → Option Rec
  | [], _ => none
  | (a, b) :: r, k => if a = k then some b else mapLookup r k

/-- The mutable state of a `HybridJoin` instance.  `streamBuffer` is the
bounded intake queue's current content (front = next to dequeue),
`keyQueue` the FIFO Key Arrival Tracker, `stopFlag` the completion flag
set by the producer.  `nextId`/`emittedIds` are ghost instrumentation:
every admitted tuple receives the id `nextId`, and `emittedIds` lists,
in emission order, the id of the source stream tuple of every
JoinedRecord appended to `joinOutput`. -/
structure JState where
  hS : Nat
  vP : Nat
  w : Nat
  streamBuffer : List Rec
  hashTable : HTable
  keyQueue : List String
  keyQueueMap : List (String × Rec)
  diskBuffer : List Rec
  joinOutput : List Rec
  tuplesJoined : Nat
  tuplesProcessed : Nat
  partitionsProcessed : Nat
  stopFlag : Bool
  nextId : Nat
  emittedIds : List Nat
deriving DecidableEq

/-- The state produced by `HybridJoin.__init__`: full budget `w = hS`,
everything else empty, completion not signalled. -/
def initState (hS vP : Nat) : JState :=
  ⟨hS, vP, hS, [], [], [], [], [], [], 0, 0, 0, false, 0, []⟩

/-- Stream-tuple count resident in the Hash Index of a state. -/
def residentCount (st : JState) : Nat := residentLen st.hashTable

/-- Loop body of `_load_stream_tuples`: admit tuples while
`tuples_loaded < self.w` (budget counts the remaining admissions) and
the stream buffer is non-empty.  Each admitted tuple is hashed with
`hash(join_key) % self.hS`, appended to its slot's list, its key
appended to the key queue and written to `key_queue_map`. -/
def loadLoop (hash : String → Nat) : Nat → JState → Nat → JState × Nat
  | 0, st, acc => (st, acc)
  | Nat.succ b, st, acc =>
    match st.streamBuffer with
    | [] => (st, acc)
    | t :: rest =>
      let k := strKey t
      let slot := hash k % st.hS
      let bucket := (htLookup st.hashTable slot).getD []
      loadLoop hash b
        { st with
          streamBuffer := rest
          hashTable := htUpd st.hashTable slot (bucket ++ [(st.nextId, t)])
          keyQueue := st.keyQueue ++ [k]
          keyQueueMap := mapSet st.keyQueueMap k t
          tuplesProcessed := st.tuplesProcessed + 1
          nextId := st.nextId + 1 }
        (acc + 1)

/-- `HybridJoin._load_stream_tuples`: drain up to `w` tuples, then set
`self.w = 0`; returns the new state and the count loaded. -/
def load_stream_tuples (hash : String → Nat) (st : JState) : JState × Nat :=
  let out := loadLoop hash st.w st 0
  ({ out.1 with w := 0 }, out.2)

/-- `HybridJoin._get_oldest_key`: front of the key queue, `None` if empty. -/
def get_oldest_key (st : JState) : Option String := st.keyQueue.head?

/-- Loop of `_load_disk_partition`: collect rows whose key equals `key`
while fewer than `vP` have been collected; `break` as soon as the count
reaches `vP`. -/
def partLoop (vP : Nat) (key : String) : List Rec → Nat → List Rec
  | [], _ => []
  | r :: rs, count =>
    if strKey r = key ∧ count < vP then
      if vP ≤ count + 1 then [r] else r :: partLoop vP key rs (count + 1)
    else
      if vP ≤ count then [] else partLoop vP key rs count

/-- `HybridJoin._load_disk_partition`: replace the disk buffer with the
matching slice of the relation and increment `partitions_processed`. -/
def load_disk_partition (relation : List Rec) (key : String) (st : JState) : JState :=
  { st with
    diskBuffer := partLoop st.vP key relation 0
    partitionsProcessed := st.partitionsProcessed + 1 }

/-- Body of `_probe_and_join` for one disk tuple: if the slot exists,
emit one JoinedRecord per key-equal resident tuple, then keep only the
key-unequal tuples, then remove the key from the queue and map (first
occurrence only — `deque.remove`) when the map holds it, then delete
the slot if its list became empty.  Returns the per-record match count. -/
def probeStepD (hash : String → Nat) (st : JState) (d : Rec) : JState × Nat :=
  let k := strKey d
  let slot := hash k % st.hS
  match htLookup st.hashTable slot with
  | none => (st, 0)
  | some lst =>
    let matched := lst.filter (fun p => strKey p.2 == k)
    let rest := lst.filter (fun p => !(strKey p.2 == k))
    let st1 := { st with
      joinOutput := st.joinOutput ++ matched.map (fun p => mergeRecord p.2 d)
      emittedIds := st.emittedIds ++ bucketIds matched
      tuplesJoined := st.tuplesJoined + matched.length
      hashTable := htUpd st.hashTable slot rest }
    let st2 :=
      if (mapLookup st1.keyQueueMap k).isSome then
        { st1 with
          keyQueue := st1.keyQueue.erase k
          keyQueueMap := mapDel st1.keyQueueMap k }
      else st1
    let st3 :=
      if rest.isEmpty then { st2 with hashTable := htDel st2.hashTable slot }
      else st2
    (st3, matched.length)

/-- Fold of `probeStepD` over the disk buffer, accumulating the match count. -/
def probeLoop (hash : String → Nat) : List Rec → JState → Nat → JState × Nat
  | [], st, m => (st, m)
  | d :: ds, st, m =>
    let out := probeStepD hash st d
    probeLoop hash ds out.1 (m + out.2)

/-- `HybridJoin._probe_and_join`: probe every disk-buffer record, then
replenish the budget with `self.w += matched_count`. -/
def probe_and_join (hash : String → Nat) (st : JState) : JState × Nat :=
  let out := probeLoop hash st.diskBuffer st 0
  ({ out.1 with w := out.1.w + out.2 }, out.2)

/-- Reference capacity of the intake queue (`queue.Queue(maxsize=5000)`). -/
def streamBufferMaxsize : Nat := 5000

/-- Reference bounded admission wait (`put(tuple_data, timeout=10)`). -/
def admissionWaitTimeout : Nat := 10

/-- `HybridJoin.add_stream_tuple` on a queue of capacity `cap`:
`put_nowait` succeeds immediately when the queue is below capacity;
otherwise the call blocks in `put(..., timeout=10)`, during which the
consumer may dequeue `freedDuringWait` tuples from the front; if the
queue is still full after the wait the `queue.Full` exception is
re-raised to the caller. -/
def add_stream_tuple (cap : Nat) (buf : List Rec) (t : Rec) (freedDuringWait : Nat) :
    Except Unit (List Rec) :=
  if buf.length < cap then Except.ok (buf ++ [t])
  else
    let buf2 := buf.drop freedDuringWait
    if buf2.length < cap then Except.ok (buf2 ++ [t]) else Except.error ()

/-- `HybridJoin.execute`, fuel-indexed: one recursive call per `while`
iteration (`time.sleep` is a skip).  `None` means the fuel ran out
before the loop exited; `some` is the state at normal exit.  The test
`if not oldest_key` is Python truthiness: it also takes the empty
string.  The producer's `stop_flag` is part of the state and is not
modified by the loop. -/
def execute (hash : String → Nat) (relation : List Rec) : Nat → JState → Option JState
  | 0, _ => none
  | Nat.succ fuel, st =>
    if st.stopFlag = false ∨ st.streamBuffer ≠ [] then
      let l := load_stream_tuples hash st
      let st1 := l.1
      if l.2 = 0 ∧ st1.streamBuffer = [] ∧ st1.keyQueue = [] then some st1
      else
        match get_oldest_key st1 with
        | none => if st1.stopFlag then some st1 else execute hash relation fuel st1
        | some k =>
          if k = "" then
            if st1.stopFlag then some st1 else execute hash relation fuel st1
          else
            let st2 := load_disk_partition relation k st1
            let st3 := (probe_and_join hash st2).1
            if st3.stopFlag ∧ st3.keyQueue = [] then some st3
            else execute hash relation fuel st3
    else some st

/-- Key queue of an `execute` result (`[]` when the fuel ran out). -/
def exitKeyQueue : Option JState → List String
  | none => []
  | some s => s.keyQueue

/-- States reachable from a freshly constructed engine by any
interleaving of producer actions (enqueue, completion signal) and
engine phases (stream load, partition load, probe). -/
inductive Reachable (hash : String → Nat) : JState → Prop where
  | init (hS vP : Nat) : Reachable hash (initState hS vP)
  | enqueue {s : JState} (t : Rec) : Reachable hash s →
      Reachable hash { s with streamBuffer := s.streamBuffer ++ [t] }
  | signalStop {s : JState} : Reachable hash s →
      Reachable hash { s with stopFlag := true }
  | load {s : JState} : Reachable hash s →
      Reachable hash (load_stream_tuples hash s).1
  | partition {s : JState} (relation : List Rec) (key : String) :
      Reachable hash s → Reachable hash (load_disk_partition relation key s)
  | probe {s : JState} : Reachable hash s →
      Reachable hash (probe_and_join hash s).1

/-- A concrete stand-in for Python's string hash, used in closed runs
whose behaviour does not depend on the hash choice. -/
def hashLen : String → Nat := String.length

/-! ### Association-list and hash-table lemmas -/

/-- Option choice with the left operand winning, used to phrase the
dict-union lookup law. -/
def optOr (x y : Option String) : Option String :=
  match x with
  | some v => some v
  | none => y

theorem recLookup_append (l₁ l₂ : Rec) (f : String) :
    recLookup (l₁ ++ l₂) f = optOr (recLookup l₁ f) (recLookup l₂ f) := by
  induction l₁ with
  | nil => simp [recLookup, optOr]
  | cons p r ih =>
    obtain ⟨a, b⟩ := p
    by_cases h : a = f <;> simp [recLookup, h, optOr, ih]

theorem recLookup_map_shadow (b : Rec) (a : Rec) (f : String) :
    recLookup (a.map (fun p => match recLookup b p.1 with
      | some v => (p.1, v)
      | none => p)) f
      = (recLookup a f).map (fun v => (recLookup b f).getD v) := by
  induction a with
  | nil => simp [recLookup]
  | cons p r ih =>
    obtain ⟨x, w⟩ := p
    by_cases h : x = f
    · subst h
      rcases hb : recLookup b x with _ | v <;> simp [recLookup, hb]
    · rcases hb : recLookup b x with _ | v <;> simp [recLookup, hb, h, ih]

theorem recLookup_filter_isNone (a : Rec) (b : Rec) (f : String) :
    recLookup (b.filter (fun p => (recLookup a p.1).isNone)) f
      = if (recLookup a f).isNone then recLookup b f else none := by
  induction b with
  | nil => simp [recLookup]
  | cons p r ih =>
    obtain ⟨x, w⟩ := p
    by_cases hxf : x = f
    · subst hxf
      rcases ha : recLookup a x with _ | v
      · simp [List.filter, recLookup, ha]
      · simp [List.filter, recLookup, ha, ih]
    · rcases ha : recLookup a x with _ | v <;>
        simp [List.filter, recLookup, ha, hxf, ih]

/-- Lookup law of the Python dict union `{**a, **b}`: the relation
record's value wins on collision, otherwise whichever side has the
field supplies it. -/
theorem mergeRecord_recLookup (a b : Rec) (f : String) :
    recLookup (mergeRecord a b) f = optOr (recLookup b f) (recLookup a f) := by
  rw [mergeRecord, recLookup_append, recLookup_map_shadow, recLookup_filter_isNone]
  rcases ha : recLookup a f with _ | v <;> rcases hb : recLookup b f with _ | w <;>
    simp [optOr]

theorem strKey_mergeRecord (a b : Rec) (h : strKey a = strKey b) :
    strKey (mergeRecord a b) = strKey b := by
  unfold strKey at *
  rw [mergeRecord_recLookup]
  rcases hb : recLookup b "Customer_ID" with _ | v
  · simpa [optOr, hb] using h
  · simp [optOr, hb]

theorem htLookup_htUpd_self (t : HTable) (s : Nat) (l : Bucket) :
    htLookup (htUpd t s l) s = some l := by
  induction t with
  | nil => simp [htUpd, htLookup]
  | cons p r ih =>
    obtain ⟨a, b⟩ := p
    by_cases h : a = s <;> simp [htUpd, htLookup, h, ih]

theorem htUpd_eq_of_lookup (t : HTable) (s : Nat) (l : Bucket)
    (h : htLookup t s = some l) : htUpd t s l = t := by
  induction t with
  | nil => simp [htLookup] at h
  | cons p r ih =>
    obtain ⟨a, b⟩ := p
    by_cases has : a = s
    · subst has
      simp [htLookup] at h
      simp [htUpd, h]
    · simp [htLookup, has] at h
      simp [htUpd, has, ih h]

theorem residentLen_htUpd (t : HTable) (s : Nat) (l : Bucket) :
    residentLen (htUpd t s l) + ((htLookup t s).getD []).length
      = residentLen t + l.length := by
  induction t with
  | nil => simp [htUpd, htLookup, residentLen]
  | cons p r ih =>
    obtain ⟨a, b⟩ := p
    by_cases h : a = s
    · simp [htUpd, htLookup, h, residentLen]
      omega
    · simp [htUpd, htLookup, h, residentLen]
      omega

theorem residentLen_htDel_nil (t : HTable) (s : Nat)
    (h : htLookup t s = some []) : residentLen (htDel t s) = residentLen t := by
  induction t with
  | nil => simp [htLookup] at h
  | cons p r ih =>
    obtain ⟨a, b⟩ := p
    by_cases has : a = s
    · subst has
      simp [htLookup] at h
      simp [htDel, h, residentLen]
    · simp [htLookup, has] at h
      simp [htDel, has, residentLen, ih h]

theorem tableIds_htDel_nil (t : HTable) (s : Nat)
    (h : htLookup t s = some []) : tableIds (htDel t s) = tableIds t := by
  induction t with
  | nil => simp [htLookup] at h
  | cons p r ih =>
    obtain ⟨a, b⟩ := p
    by_cases has : a = s
    · subst has
      simp [htLookup] at h
      simp [htDel, h, tableIds, bucketIds]
    · simp [htLookup, has] at h
      simp [htDel, has, tableIds, ih h]

theorem coe_append_mset (x y : List Nat) :
    ((x ++ y : List Nat) : Multiset Nat) = (x : Multiset Nat) + (y : Multiset Nat) :=
  (Multiset.coe_add x y).symm

theorem tableIds_htUpd_mset (t : HTable) (s : Nat) (l : Bucket) :
    (tableIds (htUpd t s l) : Multiset Nat)
        + (bucketIds ((htLookup t s).getD []) : Multiset Nat)
      = (tableIds t : Multiset Nat) + (bucketIds l : Multiset Nat) := by
  induction t with
  | nil => simp [htUpd, htLookup, tableIds, bucketIds]
  | cons p r ih =>
    obtain ⟨a, b⟩ := p
    by_cases h : a = s
    · simp only [htUpd, htLookup, h, if_true, tableIds, Option.getD_some]
      rw [coe_append_mset, coe_append_mset]
      abel
    · simp only [htUpd, htLookup, h, if_false, tableIds]
      rw [coe_append_mset, coe_append_mset, add_assoc, add_assoc, ih]

theorem bucketIds_filter_mset (lst : Bucket) (p : Nat × Rec → Bool) :
    (bucketIds (lst.filter p) : Multiset Nat)
        + (bucketIds (lst.filter (fun x => !p x)) : Multiset Nat)
      = (bucketIds lst : Multiset Nat) := by
  have hperm := (List.filter_append_perm p lst).map Prod.fst
  have : (bucketIds (lst.filter p ++ lst.filter (fun x => !p x)) : Multiset Nat)
      = (bucketIds lst : Multiset Nat) := by
    exact Multiset.coe_eq_coe.mpr (by simpa [bucketIds] using hperm)
  simpa [bucketIds] using this

/-! ### Load-phase lemmas -/

/-- Multiset of ghost ids alive in a state: ids already emitted plus ids
resident in the hash table. -/
def idMset (st : JState) : Multiset Nat :=
  (st.emittedIds : Multiset Nat) + (tableIds st.hashTable : Multiset Nat)

theorem loadLoop_pres (hash : String → Nat) (b : Nat) :
    ∀ (st : JState) (acc : Nat),
      (loadLoop hash b st acc).1.w = st.w
      ∧ (loadLoop hash b st acc).1.hS = st.hS
      ∧ (loadLoop hash b st acc).1.vP = st.vP
      ∧ (loadLoop hash b st acc).1.tuplesJoined = st.tuplesJoined
      ∧ (loadLoop hash b st acc).1.joinOutput = st.joinOutput
      ∧ (loadLoop hash b st acc).1.emittedIds = st.emittedIds
      ∧ (loadLoop hash b st acc).1.diskBuffer = st.diskBuffer
      ∧ (loadLoop hash b st acc).1.stopFlag = st.stopFlag
      ∧ (loadLoop hash b st acc).1.partitionsProcessed = st.partitionsProcessed := by
  induction b with
  | zero => intro st acc; simp [loadLoop]
  | succ b ih =>
    intro st acc
    rcases hsb : st.streamBuffer with _ | ⟨t, rest⟩
    · simp [loadLoop, hsb]
    · simpa [loadLoop, hsb] using ih _ (acc + 1)

theorem loadLoop_count_le (hash : String → Nat) (b : Nat) :
    ∀ (st : JState) (acc : Nat), (loadLoop hash b st acc).2 ≤ acc + b := by
  induction b with
  | zero => intro st acc; simp [loadLoop]
  | succ b ih =>
    intro st acc
    rcases hsb : st.streamBuffer with _ | ⟨t, rest⟩
    · simp [loadLoop, hsb]
    · have := ih ({ st with
        streamBuffer := rest
        hashTable := htUpd st.hashTable (hash (strKey t) % st.hS)
          (((htLookup st.hashTable (hash (strKey t) % st.hS)).getD []) ++ [(st.nextId, t)])
        keyQueue := st.keyQueue ++ [strKey t]
        keyQueueMap := mapSet st.keyQueueMap (strKey t) t
        tuplesProcessed := st.tuplesProcessed + 1
        nextId := st.nextId + 1 }) (acc + 1)
      simp only [loadLoop, hsb]
      omega

theorem loadLoop_resident (hash : String → Nat) (b : Nat) :
    ∀ (st : JState) (acc : Nat),
      residentLen (loadLoop hash b st acc).1.hashTable + acc
        = residentLen st.hashTable + (loadLoop hash b st acc).2 := by
  induction b with
  | zero => intro st acc; simp [loadLoop]
  | succ b ih =>
    intro st acc
    rcases hsb : st.streamBuffer with _ | ⟨t, rest⟩
    · simp [loadLoop, hsb]
    · have hupd := residentLen_htUpd st.hashTable (hash (strKey t) % st.hS)
        (((htLookup st.hashTable (hash (strKey t) % st.hS)).getD []) ++ [(st.nextId, t)])
      have := ih ({ st with
        streamBuffer := rest
        hashTable := htUpd st.hashTable (hash (strKey t) % st.hS)
          (((htLookup st.hashTable (hash (strKey t) % st.hS)).getD []) ++ [(st.nextId, t)])
        keyQueue := st.keyQueue ++ [strKey t]
        keyQueueMap := mapSet st.keyQueueMap (strKey t) t
        tuplesProcessed := st.tuplesProcessed + 1
        nextId := st.nextId + 1 }) (acc + 1)
      simp only [loadLoop, hsb]
      simp only [List.length_append, List.length_cons, List.length_nil] at hupd
      simp only [] at this
      omega

theorem loadLoop_processed (hash : String → Nat) (b : Nat) :
    ∀ (st : JState) (acc : Nat),
      (loadLoop hash b st acc).1.tuplesProcessed + acc
        = st.tuplesProcessed + (loadLoop hash b st acc).2 := by
  induction b with
  | zero => intro st acc; simp [loadLoop]
  | succ b ih =>
    intro st acc
    rcases hsb : st.streamBuffer with _ | ⟨t, rest⟩
    · simp [loadLoop, hsb]
    · have := ih ({ st with
        streamBuffer := rest
        hashTable := htUpd st.hashTable (hash (strKey t) % st.hS)
          (((htLookup st.hashTable (hash (strKey t) % st.hS)).getD []) ++ [(st.nextId, t)])
        keyQueue := st.keyQueue ++ [strKey t]
        keyQueueMap := mapSet st.keyQueueMap (strKey t) t
        tuplesProcessed := st.tuplesProcessed + 1
        nextId := st.nextId + 1 }) (acc + 1)
      simp only [loadLoop, hsb]
      simp only [] at this
      omega

theorem loadLoop_nilBuffer (hash : String → Nat) (b : Nat) (st : JState) (acc : Nat)
    (h : st.streamBuffer = []) : loadLoop hash b st acc = (st, acc) := by
  cases b <;> simp [loadLoop, h]

theorem bucketIds_append (x y : Bucket) :
    bucketIds (x ++ y) = bucketIds x ++ bucketIds y := by
  simp [bucketIds]

/-- Loading one tuple adds exactly the fresh ghost id `st.nextId` to the
alive-id multiset. -/
theorem tableIds_loadInsert_mset (t : HTable) (slot : Nat) (n : Nat) (tp : Rec) :
    (tableIds (htUpd t slot (((htLookup t slot).getD []) ++ [(n, tp)])) : Multiset Nat)
      = (tableIds t : Multiset Nat) + {n} := by
  have h := tableIds_htUpd_mset t slot (((htLookup t slot).getD []) ++ [(n, tp)])
  rw [bucketIds_append, coe_append_mset] at h
  have hsing : (bucketIds [(n, tp)] : Multiset Nat) = {n} := by
    simp [bucketIds]
  rw [hsing] at h
  have h2 : (tableIds (htUpd t slot (((htLookup t slot).getD []) ++ [(n, tp)])) : Multiset Nat)
        + (bucketIds ((htLookup t slot).getD []) : Multiset Nat)
      = ((tableIds t : Multiset Nat) + {n})
        + (bucketIds ((htLookup t slot).getD []) : Multiset Nat) := by
    rw [h]; abel
  exact add_right_cancel h2

theorem loadLoop_idInv (hash : String → Nat) (b : Nat) :
    ∀ (st : JState) (acc : Nat),
      (idMset st).Nodup → (∀ i ∈ idMset st, i < st.nextId) →
      (idMset (loadLoop hash b st acc).1).Nodup
        ∧ ∀ i ∈ idMset (loadLoop hash b st acc).1,
            i < (loadLoop hash b st acc).1.nextId := by
  induction b with
  | zero => intro st acc h1 h2; simpa [loadLoop] using ⟨h1, h2⟩
  | succ b ih =>
    intro st acc h1 h2
    rcases hsb : st.streamBuffer with _ | ⟨t, rest⟩
    · simp only [loadLoop, hsb]
      exact ⟨h1, h2⟩
    · simp only [loadLoop, hsb]
      set st' : JState := { st with
        streamBuffer := rest
        hashTable := htUpd st.hashTable (hash (strKey t) % st.hS)
          (((htLookup st.hashTable (hash (strKey t) % st.hS)).getD []) ++ [(st.nextId, t)])
        keyQueue := st.keyQueue ++ [strKey t]
        keyQueueMap := mapSet st.keyQueueMap (strKey t) t
        tuplesProcessed := st.tuplesProcessed + 1
        nextId := st.nextId + 1 } with hst'
    -- the id multiset after one admission
      have hmset : idMset st' = idMset st + {st.nextId} := by
        rw [hst']
        unfold idMset
        simp only []
        rw [tableIds_loadInsert_mset]
        abel
      have hfresh : st.nextId ∉ idMset st := fun hmem => lt_irrefl _ (h2 _ hmem)
      have h1' : (idMset st').Nodup := by
        rw [hmset]
        rw [Multiset.nodup_add]
        refine ⟨h1, Multiset.nodup_singleton _, Multiset.disjoint_left.mpr ?_⟩
        intro a ha hb
        rw [Multiset.mem_singleton] at hb
        exact hfresh (hb ▸ ha)
      have h2' : ∀ i ∈ idMset st', i < st'.nextId := by
        intro i hi
        rw [hmset, Multiset.mem_add] at hi
        have hnext : st'.nextId = st.nextId + 1 := by rw [hst']
        rcases hi with hi | hi
        · have := h2 i hi; omega
        · rw [Multiset.mem_singleton] at hi; omega
      exact ih st' (acc + 1) h1' h2'

/-! ### Probe-phase lemmas -/

theorem probeStepD_spec (hash : String → Nat) (st : JState) (d : Rec) :
    (probeStepD hash st d).1.w = st.w
    ∧ (probeStepD hash st d).1.hS = st.hS
    ∧ (probeStepD hash st d).1.vP = st.vP
    ∧ (probeStepD hash st d).1.streamBuffer = st.streamBuffer
    ∧ (probeStepD hash st d).1.tuplesProcessed = st.tuplesProcessed
    ∧ (probeStepD hash st d).1.nextId = st.nextId
    ∧ (probeStepD hash st d).1.diskBuffer = st.diskBuffer
    ∧ (probeStepD hash st d).1.stopFlag = st.stopFlag
    ∧ (probeStepD hash st d).1.partitionsProcessed = st.partitionsProcessed
    ∧ residentLen (probeStepD hash st d).1.hashTable + (probeStepD hash st d).2
        = residentLen st.hashTable
    ∧ (probeStepD hash st d).1.tuplesJoined = st.tuplesJoined + (probeStepD hash st d).2
    ∧ idMset (probeStepD hash st d).1 = idMset st
    ∧ ∀ r ∈ (probeStepD hash st d).1.joinOutput,
        r ∈ st.joinOutput ∨ ∃ tp, r = mergeRecord tp d ∧ strKey tp = strKey d := by
  rcases h : htLookup st.hashTable (hash (strKey d) % st.hS) with _ | lst
  · refine ⟨?_, ?_, ?_, ?_, ?_, ?_, ?_, ?_, ?_, ?_, ?_, ?_, ?_⟩ <;>
      simp only [probeStepD, h] <;>
      first
      | trivial
      | omega
      | exact fun r hr => Or.inl hr
  · have hlen : (lst.filter (fun p => strKey p.2 == strKey d)).length
        + (lst.filter (fun p => !(strKey p.2 == strKey d))).length = lst.length := by
      have := (List.filter_append_perm (fun p => strKey p.2 == strKey d) lst).length_eq
      simpa using this
    have hres1 := residentLen_htUpd st.hashTable (hash (strKey d) % st.hS)
      (lst.filter (fun p => !(strKey p.2 == strKey d)))
    rw [h] at hres1
    simp only [Option.getD_some] at hres1
    have hmset1 := tableIds_htUpd_mset st.hashTable (hash (strKey d) % st.hS)
      (lst.filter (fun p => !(strKey p.2 == strKey d)))
    rw [h] at hmset1
    simp only [Option.getD_some] at hmset1
    have hsplit := bucketIds_filter_mset lst (fun p => strKey p.2 == strKey d)
    have hlkup := htLookup_htUpd_self st.hashTable (hash (strKey d) % st.hS)
      (lst.filter (fun p => !(strKey p.2 == strKey d)))
    have hidm : (((st.emittedIds ++ bucketIds (lst.filter (fun p => strKey p.2 == strKey d))
            : List Nat)) : Multiset Nat)
          + (tableIds (htUpd st.hashTable (hash (strKey d) % st.hS)
              (lst.filter (fun p => !(strKey p.2 == strKey d)))) : Multiset Nat)
        = (st.emittedIds : Multiset Nat) + (tableIds st.hashTable : Multiset Nat) := by
      have hstep : (((st.emittedIds
              ++ bucketIds (lst.filter (fun p => strKey p.2 == strKey d))
              : List Nat)) : Multiset Nat)
            + (tableIds (htUpd st.hashTable (hash (strKey d) % st.hS)
                (lst.filter (fun p => !(strKey p.2 == strKey d)))) : Multiset Nat)
            + (bucketIds lst : Multiset Nat)
          = (st.emittedIds : Multiset Nat) + (tableIds st.hashTable : Multiset Nat)
            + (bucketIds lst : Multiset Nat) := by
        rw [coe_append_mset]
        calc (st.emittedIds : Multiset Nat)
              + (bucketIds (lst.filter (fun p => strKey p.2 == strKey d)) : Multiset Nat)
              + (tableIds (htUpd st.hashTable (hash (strKey d) % st.hS)
                  (lst.filter (fun p => !(strKey p.2 == strKey d)))) : Multiset Nat)
              + (bucketIds lst : Multiset Nat)
            = (st.emittedIds : Multiset Nat)
              + (bucketIds (lst.filter (fun p => strKey p.2 == strKey d)) : Multiset Nat)
              + ((tableIds (htUpd st.hashTable (hash (strKey d) % st.hS)
                  (lst.filter (fun p => !(strKey p.2 == strKey d)))) : Multiset Nat)
                + (bucketIds lst : Multiset Nat)) := by abel
          _ = (st.emittedIds : Multiset Nat)
              + (bucketIds (lst.filter (fun p => strKey p.2 == strKey d)) : Multiset Nat)
              + ((tableIds st.hashTable : Multiset Nat)
                + (bucketIds (lst.filter (fun p => !(strKey p.2 == strKey d))) : Multiset Nat)) := by
                rw [hmset1]
          _ = (st.emittedIds : Multiset Nat) + (tableIds st.hashTable : Multiset Nat)
              + ((bucketIds (lst.filter (fun p => strKey p.2 == strKey d)) : Multiset Nat)
                + (bucketIds (lst.filter (fun p => !(strKey p.2 == strKey d))) : Multiset Nat)) := by
                abel
          _ = (st.emittedIds : Multiset Nat) + (tableIds st.hashTable : Multiset Nat)
              + (bucketIds lst : Multiset Nat) := by rw [hsplit]
      exact add_right_cancel hstep
    have hout : ∀ r ∈ st.joinOutput
          ++ (lst.filter (fun p => strKey p.2 == strKey d)).map (fun p => mergeRecord p.2 d),
        r ∈ st.joinOutput ∨ ∃ tp, r = mergeRecord tp d ∧ strKey tp = strKey d := by
      intro r hr
      rcases List.mem_append.mp hr with hr | hr
      · exact Or.inl hr
      · obtain ⟨p, hp, hpr⟩ := List.mem_map.mp hr
        refine Or.inr ⟨p.2, hpr.symm, ?_⟩
        have := (List.mem_filter.mp hp).2
        simpa using this
    refine ⟨?_, ?_, ?_, ?_, ?_, ?_, ?_, ?_, ?_, ?_, ?_, ?_, ?_⟩ <;>
      simp only [probeStepD, h]
    · split <;> split <;> rfl
    · split <;> split <;> rfl
    · split <;> split <;> rfl
    · split <;> split <;> rfl
    · split <;> split <;> rfl
    · split <;> split <;> rfl
    · split <;> split <;> rfl
    · split <;> split <;> rfl
    · split <;> split <;> rfl
    · split
      next hemp =>
        have hnil : lst.filter (fun p => !(strKey p.2 == strKey d)) = [] := by
          simpa using hemp
        have hdel1 : residentLen (htDel (htUpd st.hashTable (hash (strKey d) % st.hS)
              (lst.filter (fun p => !(strKey p.2 == strKey d)))) (hash (strKey d) % st.hS))
            = residentLen (htUpd st.hashTable (hash (strKey d) % st.hS)
              (lst.filter (fun p => !(strKey p.2 == strKey d)))) := by
          apply residentLen_htDel_nil
          rw [hlkup, hnil]
        split <;> (rw [hdel1]; omega)
      next hemp =>
        split <;>
          (show residentLen (htUpd st.hashTable (hash (strKey d) % st.hS)
                (lst.filter (fun p => !(strKey p.2 == strKey d))))
              + (lst.filter (fun p => strKey p.2 == strKey d)).length
              = residentLen st.hashTable
           omega)
    · split <;> split <;> rfl
    · split
      next hemp =>
        have hnil : lst.filter (fun p => !(strKey p.2 == strKey d)) = [] := by
          simpa using hemp
        have hdel2 : tableIds (htDel (htUpd st.hashTable (hash (strKey d) % st.hS)
              (lst.filter (fun p => !(strKey p.2 == strKey d)))) (hash (strKey d) % st.hS))
            = tableIds (htUpd st.hashTable (hash (strKey d) % st.hS)
              (lst.filter (fun p => !(strKey p.2 == strKey d)))) := by
          apply tableIds_htDel_nil
          rw [hlkup, hnil]
        split <;> (simp only [idMset]; rw [hdel2]; exact hidm)
      next hemp => split <;> (simp only [idMset]; exact hidm)
    · split <;> split <;> exact hout

theorem probeLoop_spec (hash : String → Nat) (ds : List Rec) :
    ∀ (st : JState) (m : Nat),
      (probeLoop hash ds st m).1.w = st.w
      ∧ (probeLoop hash ds st m).1.hS = st.hS
      ∧ (probeLoop hash ds st m).1.vP = st.vP
      ∧ (probeLoop hash ds st m).1.streamBuffer = st.streamBuffer
      ∧ (probeLoop hash ds st m).1.tuplesProcessed = st.tuplesProcessed
      ∧ (probeLoop hash ds st m).1.nextId = st.nextId
      ∧ (probeLoop hash ds st m).1.stopFlag = st.stopFlag
      ∧ (probeLoop hash ds st m).1.partitionsProcessed = st.partitionsProcessed
      ∧ residentLen (probeLoop hash ds st m).1.hashTable + (probeLoop hash ds st m).2
          = residentLen st.hashTable + m
      ∧ (probeLoop hash ds st m).1.tuplesJoined + m
          = st.tuplesJoined + (probeLoop hash ds st m).2
      ∧ idMset (probeLoop hash ds st m).1 = idMset st
      ∧ ∀ r ∈ (probeLoop hash ds st m).1.joinOutput,
          r ∈ st.joinOutput ∨ ∃ tp dd, r = mergeRecord tp dd ∧ strKey tp = strKey dd := by
  induction ds with
  | nil =>
    intro st m
    refine ⟨rfl, rfl, rfl, rfl, rfl, rfl, rfl, rfl, rfl, rfl, rfl, ?_⟩
    exact fun r hr => Or.inl hr
  | cons d ds ih =>
    intro st m
    obtain ⟨sw, shS, svP, ssb, stp, sni, sdb, ssf, spp, sres, sjoin, sid, sout⟩ :=
      probeStepD_spec hash st d
    obtain ⟨iw, ihS, ivP, isb, itp, ini, isf, ipp, ires, ijoin, iid, iout⟩ :=
      ih (probeStepD hash st d).1 (m + (probeStepD hash st d).2)
    simp only [probeLoop]
    refine ⟨?_, ?_, ?_, ?_, ?_, ?_, ?_, ?_, ?_, ?_, ?_, ?_⟩
    · rw [iw, sw]
    · rw [ihS, shS]
    · rw [ivP, svP]
    · rw [isb, ssb]
    · rw [itp, stp]
    · rw [ini, sni]
    · rw [isf, ssf]
    · rw [ipp, spp]
    · omega
    · omega
    · rw [iid, sid]
    · intro r hr
      rcases iout r hr with hr2 | hr2
      · rcases sout r hr2 with hr3 | ⟨tp, htp1, htp2⟩
        · exact Or.inl hr3
        · exact Or.inr ⟨tp, d, htp1, htp2⟩
      · exact Or.inr hr2

theorem probe_and_join_spec (hash : String → Nat) (st : JState) :
    (probe_and_join hash st).1.w = st.w + (probe_and_join hash st).2
    ∧ (probe_and_join hash st).1.hS = st.hS
    ∧ (probe_and_join hash st).1.vP = st.vP
    ∧ (probe_and_join hash st).1.streamBuffer = st.streamBuffer
    ∧ (probe_and_join hash st).1.tuplesProcessed = st.tuplesProcessed
    ∧ (probe_and_join hash st).1.nextId = st.nextId
    ∧ (probe_and_join hash st).1.stopFlag = st.stopFlag
    ∧ (probe_and_join hash st).1.partitionsProcessed = st.partitionsProcessed
    ∧ residentLen (probe_and_join hash st).1.hashTable + (probe_and_join hash st).2
        = residentLen st.hashTable
    ∧ (probe_and_join hash st).1.tuplesJoined
        = st.tuplesJoined + (probe_and_join hash st).2
    ∧ idMset (probe_and_join hash st).1 = idMset st
    ∧ ∀ r ∈ (probe_and_join hash st).1.joinOutput,
        r ∈ st.joinOutput ∨ ∃ tp dd, r = mergeRecord tp dd ∧ strKey tp = strKey dd := by
  obtain ⟨lw, lhS, lvP, lsb, ltp, lni, lsf, lpp, lres, ljoin, lid, lout⟩ :=
    probeLoop_spec hash st.diskBuffer st 0
  simp only [probe_and_join]
  refine ⟨?_, ?_, ?_, ?_, ?_, ?_, ?_, ?_, ?_, ?_, ?_, ?_⟩
  · show (probeLoop hash st.diskBuffer st 0).1.w + (probeLoop hash st.diskBuffer st 0).2
      = st.w + (probeLoop hash st.diskBuffer st 0).2
    rw [lw]
  · exact lhS
  · exact lvP
  · exact lsb
  · exact ltp
  · exact lni
  · exact lsf
  · exact lpp
  · exact lres
  · omega
  · show idMset { (probeLoop hash st.diskBuffer st 0).1 with
      w := (probeLoop hash st.diskBuffer st 0).1.w + (probeLoop hash st.diskBuffer st 0).2 }
      = idMset st
    rw [← lid]
    rfl
  · exact lout

/-! ### Reachability invariants -/

theorem reachable_inv (hash : String → Nat) {s : JState} (h : Reachable hash s) :
    residentLen s.hashTable + s.w ≤ s.hS
    ∧ s.tuplesJoined + residentLen s.hashTable ≤ s.tuplesProcessed
    ∧ (idMset s).Nodup
    ∧ (∀ i ∈ idMset s, i < s.nextId)
    ∧ ∀ r ∈ s.joinOutput, ∃ t d, r = mergeRecord t d ∧ strKey t = strKey d := by
  induction h with
  | init hS vP =>
    refine ⟨?_, ?_, ?_, ?_, ?_⟩ <;> simp [initState, residentLen, idMset, tableIds]
  | enqueue t h ih => exact ih
  | signalStop h ih => exact ih
  | partition relation key h ih => exact ih
  | load h ih =>
    rename_i s0
    obtain ⟨pw, phS, pvP, pjoin, pout, pemit, pdb, psf, ppp⟩ := loadLoop_pres hash s0.w s0 0
    have pcnt := loadLoop_count_le hash s0.w s0 0
    have pres := loadLoop_resident hash s0.w s0 0
    have pproc := loadLoop_processed hash s0.w s0 0
    have pid := loadLoop_idInv hash s0.w s0 0 ih.2.2.1 ih.2.2.2.1
    refine ⟨?_, ?_, ?_, ?_, ?_⟩
    · show residentLen (loadLoop hash s0.w s0 0).1.hashTable + 0
        ≤ (loadLoop hash s0.w s0 0).1.hS
      rw [phS]
      have h1 := ih.1
      omega
    · show (loadLoop hash s0.w s0 0).1.tuplesJoined
          + residentLen (loadLoop hash s0.w s0 0).1.hashTable
        ≤ (loadLoop hash s0.w s0 0).1.tuplesProcessed
      rw [pjoin]
      have h1 := ih.2.1
      omega
    · show (idMset (loadLoop hash s0.w s0 0).1).Nodup
      exact pid.1
    · show ∀ i ∈ idMset (loadLoop hash s0.w s0 0).1,
        i < (loadLoop hash s0.w s0 0).1.nextId
      exact pid.2
    · show ∀ r ∈ (loadLoop hash s0.w s0 0).1.joinOutput,
        ∃ t d, r = mergeRecord t d ∧ strKey t = strKey d
      rw [pout]
      exact ih.2.2.2.2
  | probe h ih =>
    rename_i s0
    obtain ⟨qw, qhS, qvP, qsb, qtp, qni, qsf, qpp, qres, qjoin, qid, qout⟩ :=
      probe_and_join_spec hash s0
    refine ⟨?_, ?_, ?_, ?_, ?_⟩
    · rw [qw, qhS]
      have h1 := ih.1
      omega
    · rw [qjoin, qtp]
      have h1 := ih.2.1
      omega
    · rw [qid]
      exact ih.2.2.1
    · intro i hi
      rw [qid] at hi
      rw [qni]
      exact ih.2.2.2.1 i hi
    · intro r hr
      rcases qout r hr with h1 | ⟨tp, dd, h2, h3⟩
      · exact ih.2.2.2.2 r h1
      · exact ⟨tp, dd, h2, h3⟩

/-! ### Concrete scenario: two stream tuples with key A, one relation record -/

/-- Stream tuple with key `A` and payload field `x = 1`. -/
def tA1 : Rec := [("Customer_ID", "A"), ("x", "1")]

/-- Stream tuple with key `A` and payload field `x = 2`. -/
def tA2 : Rec := [("Customer_ID", "A"), ("x", "2")]

/-- Relation record with key `A` and payload field `y = 9`. -/
def dA : Rec := [("Customer_ID", "A"), ("y", "9")]

/-- Relation record with key `A` and payload field `y = 8`. -/
def dA2 : Rec := [("Customer_ID", "A"), ("y", "8")]

/-- Engine state after the producer enqueued `tA1`. -/
def c2q1 : JState :=
  { initState 4 2 with streamBuffer := (initState 4 2).streamBuffer ++ [tA1] }

/-- Engine state after the producer enqueued `tA1` then `tA2`. -/
def c2q2 : JState := { c2q1 with streamBuffer := c2q1.streamBuffer ++ [tA2] }

/-- Engine state after the load phase admitted both tuples. -/
def c2loaded : JState := (load_stream_tuples hashLen c2q2).1

/-- Engine state after materializing the partition for key `A` from a
relation holding one `A` record. -/
def c2part : JState := load_disk_partition [dA] "A" c2loaded

/-- Engine state after the probe phase serviced key `A`. -/
def c2fin : JState := (probe_and_join hashLen c2part).1

/-- The scenario state is reachable. -/
def c2reach : Reachable hashLen c2fin :=
  Reachable.probe (Reachable.partition [dA] "A"
    (Reachable.load (Reachable.enqueue tA2 (Reachable.enqueue tA1 (Reachable.init 4 2)))))

/-! ### Claim theorems -/

/-- C1: in every reachable state the number of stream tuples resident in
the Hash Index is at most `hash_slots`; moreover the load phase admits
at most `w` tuples and leaves `w = 0`, and the probe phase increases `w`
by exactly the number of tuples it evicted from the index. -/
theorem capacity_invariant (hash : String → Nat) (s : JState) (h : Reachable hash s) :
    residentCount s ≤ s.hS
    ∧ (load_stream_tuples hash s).2 ≤ s.w
    ∧ (load_stream_tuples hash s).1.w = 0
    ∧ residentCount s
        = residentCount (probe_and_join hash s).1 + (probe_and_join hash s).2
    ∧ (probe_and_join hash s).1.w = s.w + (probe_and_join hash s).2 := by
  have hinv := reachable_inv hash h
  obtain ⟨qw, qhS, qvP, qsb, qtp, qni, qsf, qpp, qres, qjoin, qid, qout⟩ :=
    probe_and_join_spec hash s
  have pcnt := loadLoop_count_le hash s.w s 0
  refine ⟨?_, ?_, rfl, ?_, qw⟩
  · have h1 := hinv.1
    simp only [residentCount]
    omega
  · show (loadLoop hash s.w s 0).2 ≤ s.w
    omega
  · simp only [residentCount]
    omega

/-- C1 witness: the capacity facts instantiated at the concrete reachable
probe-phase state of the two-tuple scenario. -/
theorem capacity_invariant_witness :
    residentCount c2fin ≤ c2fin.hS
    ∧ (load_stream_tuples hashLen c2fin).2 ≤ c2fin.w
    ∧ (load_stream_tuples hashLen c2fin).1.w = 0
    ∧ residentCount c2fin
        = residentCount (probe_and_join hashLen c2fin).1 + (probe_and_join hashLen c2fin).2
    ∧ (probe_and_join hashLen c2fin).1.w = c2fin.w + (probe_and_join hashLen c2fin).2 :=
  capacity_invariant hashLen c2fin c2reach

theorem partLoop_mem (vP : Nat) (key : String) :
    ∀ (rel : List Rec) (count : Nat) (r : Rec),
      r ∈ partLoop vP key rel count → strKey r = key := by
  intro rel
  induction rel with
  | nil => intro count r hr; simp [partLoop] at hr
  | cons x rs ih =>
    intro count r hr
    by_cases h1 : strKey x = key ∧ count < vP
    · simp only [partLoop, if_pos h1] at hr
      by_cases h2 : vP ≤ count + 1
      · simp [h2] at hr
        exact hr ▸ h1.1
      · simp [h2] at hr
        rcases hr with hr | hr
        · exact hr ▸ h1.1
        · exact ih (count + 1) r hr
    · simp only [partLoop, if_neg h1] at hr
      by_cases h2 : vP ≤ count
      · simp [h2] at hr
      · simp [h2] at hr
        exact ih count r hr

theorem partLoop_length (vP : Nat) (key : String) :
    ∀ (rel : List Rec) (count : Nat), count ≤ vP →
      (partLoop vP key rel count).length + count ≤ vP := by
  intro rel
  induction rel with
  | nil => intro count hc; simp [partLoop]; omega
  | cons x rs ih =>
    intro count hc
    by_cases h1 : strKey x = key ∧ count < vP
    · simp only [partLoop, if_pos h1]
      by_cases h2 : vP ≤ count + 1
      · simp only [if_pos h2, List.length_cons, List.length_nil]
        omega
      · simp only [if_neg h2, List.length_cons]
        have := ih (count + 1) (by omega)
        omega
    · simp only [partLoop, if_neg h1]
      by_cases h2 : vP ≤ count
      · simp only [if_pos h2, List.length_nil]
        omega
      · simp only [if_neg h2]
        exact ih count hc

/-- C5: for every relation and key, the partition loader replaces the
disk buffer with a list containing only records whose join key equals
the given key, of length at most `partition_size`, and increments the
partitions-processed counter by exactly one on every call. -/
theorem partition_loader_contract (relation : List Rec) (key : String) (st : JState) :
    (∀ r ∈ (load_disk_partition relation key st).diskBuffer, strKey r = key)
    ∧ (load_disk_partition relation key st).diskBuffer.length ≤ st.vP
    ∧ (load_disk_partition relation key st).partitionsProcessed
        = st.partitionsProcessed + 1
    ∧ (load_disk_partition relation key st).diskBuffer = partLoop st.vP key relation 0 := by
  refine ⟨?_, ?_, rfl, rfl⟩
  · intro r hr
    exact partLoop_mem st.vP key relation 0 r hr
  · have := partLoop_length st.vP key relation 0 (Nat.zero_le _)
    show (partLoop st.vP key relation 0).length ≤ st.vP
    omega

/-- C6: a submit that returns successfully has placed its tuple at the
tail of the intake queue (never silently dropped), and a submit that
finds the queue full and still full after the bounded wait raises the
failure to the caller instead of returning normally. -/
theorem backpressure_submit (cap : Nat) (buf : List Rec) (t : Rec) (freed : Nat) :
    (∀ r, add_stream_tuple cap buf t freed = Except.ok r → ∃ q, r = q ++ [t])
    ∧ (cap ≤ buf.length → cap ≤ (buf.drop freed).length →
        add_stream_tuple cap buf t freed = Except.error ()) := by
  constructor
  · intro r hr
    unfold add_stream_tuple at hr
    by_cases h1 : buf.length < cap
    · simp only [if_pos h1] at hr
      exact ⟨buf, by injection hr with h; exact h.symm⟩
    · simp only [if_neg h1] at hr
      by_cases h2 : (buf.drop freed).length < cap
      · simp only [if_pos h2] at hr
        exact ⟨buf.drop freed, by injection hr with h; exact h.symm⟩
      · simp only [if_neg h2] at hr
        exact absurd hr (by simp)
  · intro h1 h2
    unfold add_stream_tuple
    rw [if_neg (by omega), if_neg (by omega)]

/-- C6 witness: submitting to a full capacity-2 queue with no consumer
progress during the wait raises the backpressure failure. -/
theorem backpressure_submit_witness :
    add_stream_tuple 2 [tA1, tA2] dA 0 = Except.error () :=
  (backpressure_submit 2 [tA1, tA2] dA 0).2 (by decide) (by decide)

/-- C7: in every reachable state `tuples_joined ≤ tuples_processed`, and
every JoinedRecord in the output sequence was built from a stream tuple
and a relation record whose join keys both equal the JoinedRecord's key. -/
theorem conservation (hash : String → Nat) (s : JState) (h : Reachable hash s) :
    s.tuplesJoined ≤ s.tuplesProcessed
    ∧ ∀ r ∈ s.joinOutput, ∃ t d, r = mergeRecord t d
        ∧ strKey r = strKey t ∧ strKey r = strKey d := by
  have hinv := reachable_inv hash h
  refine ⟨by have := hinv.2.1; omega, ?_⟩
  intro r hr
  obtain ⟨t, d, rfl, hk⟩ := hinv.2.2.2.2 r hr
  have hm := strKey_mergeRecord t d hk
  exact ⟨t, d, rfl, by rw [hm, ← hk], hm⟩

/-- C7 witness: conservation instantiated at the concrete reachable
probe-phase state of the two-tuple scenario and at the first emitted
JoinedRecord. -/
theorem conservation_witness :
    c2fin.tuplesJoined ≤ c2fin.tuplesProcessed
    ∧ ∃ t d, mergeRecord tA1 dA = mergeRecord t d
        ∧ strKey (mergeRecord tA1 dA) = strKey t
        ∧ strKey (mergeRecord tA1 dA) = strKey d :=
  ⟨(conservation hashLen c2fin c2reach).1,
   (conservation hashLen c2fin c2reach).2 (mergeRecord tA1 dA) (by decide)⟩

/-- C8: every JoinedRecord in the output of a reachable state is the
field-wise union of its source stream tuple and relation record: for
every field name, the JoinedRecord holds the relation record's value
when that record has the field, and otherwise the stream tuple's value
(fields of only one source are carried through unchanged). -/
theorem merge_rule (hash : String → Nat) (s : JState) (h : Reachable hash s) :
    ∀ r ∈ s.joinOutput, ∃ t d, r = mergeRecord t d
      ∧ ∀ f, recLookup r f = optOr (recLookup d f) (recLookup t f) := by
  intro r hr
  obtain ⟨t, d, rfl, hk⟩ := (reachable_inv hash h).2.2.2.2 r hr
  exact ⟨t, d, rfl, fun f => mergeRecord_recLookup t d f⟩

/-- C8 witness: the merge rule instantiated at the concrete reachable
probe-phase state of the two-tuple scenario and at the first emitted
JoinedRecord. -/
theorem merge_rule_witness :
    ∃ t d, mergeRecord tA1 dA = mergeRecord t d
      ∧ ∀ f, recLookup (mergeRecord tA1 dA) f
          = optOr (recLookup d f) (recLookup t f) :=
  merge_rule hashLen c2fin c2reach (mergeRecord tA1 dA) (by decide)

/-- C9: in every reachable state the ghost ids of emitted JoinedRecords
are pairwise distinct: each admitted stream-tuple instance contributes
a JoinedRecord at most once over the whole run, hence in at most one
probe invocation — once matched and evicted it is never matched again. -/
theorem idempotent_emission (hash : String → Nat) (s : JState) (h : Reachable hash s) :
    s.emittedIds.Nodup := by
  have hd := (reachable_inv hash h).2.2.1
  rw [idMset, Multiset.nodup_add] at hd
  exact Multiset.coe_nodup.mp hd.1

/-- C9 witness: distinctness of emission ids at the concrete reachable
probe-phase state of the two-tuple scenario. -/
theorem idempotent_emission_witness : c2fin.emittedIds.Nodup :=
  idempotent_emission hashLen c2fin c2reach

/-- C2 (behaviour at the failing input): loading two stream tuples with
key `A` creates two tracker entries; one probe servicing key `A` evicts
both resident tuples but removes only the first tracker entry
(`deque.remove`), leaving a stale `A` entry while no stream tuple with
key `A` remains resident.  The scenario uses a single key, so it does
not depend on the choice of hash function. -/
theorem tracker_eviction_stale_entry :
    c2loaded.keyQueue = ["A", "A"]
    ∧ c2fin.keyQueue = ["A"]
    ∧ residentCount c2fin = 0 := by
  refine ⟨rfl, rfl, rfl⟩

/-- State used for the terminal-condition counterexample: completion
already signalled, one tuple with key `A` queued, relation empty. -/
def c4init : JState := { initState 4 2 with streamBuffer := [tA1], stopFlag := true }

/-- State with completion signalled and nothing pending. -/
def c4done : JState := { initState 4 2 with stopFlag := true }

/-- C4 counterexample: with completion signalled, one queued tuple and an
empty relation, the main loop exits normally (in two iterations) while
the Key Arrival Tracker still holds the key `A` — "tracker empty" is not
part of the loop's actual exit condition. -/
theorem loop_exit_tracker_nonempty_cex :
    (execute hashLen [] 2 c4init).isSome = true
    ∧ exitKeyQueue (execute hashLen [] 2 c4init) = ["A"] := by
  refine ⟨rfl, rfl⟩

/-- C4 amended: whenever the main loop exits normally, either completion
has been signalled, or the intake queue and the tracker are both empty
(the early exit with no pending work); the tracker alone being non-empty
does not prevent exit. -/
theorem loop_exit_condition (hash : String → Nat) (relation : List Rec) :
    ∀ (fuel : Nat) (st s' : JState), execute hash relation fuel st = some s' →
      s'.stopFlag = true ∨ (s'.streamBuffer = [] ∧ s'.keyQueue = []) := by
  intro fuel
  induction fuel with
  | zero => intro st s' h; simp [execute] at h
  | succ fuel ih =>
    intro st s' h
    simp only [execute] at h
    split at h
    next hcond =>
      split at h
      next hbreak =>
        injection h with h2
        subst h2
        exact Or.inr ⟨hbreak.2.1, hbreak.2.2⟩
      next hbreak =>
        split at h
        next hnone =>
          split at h
          next hstop =>
            injection h with h2
            subst h2
            exact Or.inl hstop
          next hstop => exact ih _ _ h
        next k hk =>
          split at h
          next hke =>
            split at h
            next hstop =>
              injection h with h2
              subst h2
              exact Or.inl hstop
            next hstop => exact ih _ _ h
          next hke =>
            split at h
            next hfin =>
              injection h with h2
              subst h2
              exact Or.inl hfin.1
            next hfin => exact ih _ _ h
    next hcond =>
      injection h with h2
      subst h2
      rcases hsf : st.stopFlag with _ | _
      · exact absurd (Or.inl hsf) hcond
      · exact Or.inl rfl


/-- C4 witness: the amended exit condition applied to the immediate-exit
run (completion signalled, nothing queued, fuel 1). -/
theorem loop_exit_condition_witness :
    c4done.stopFlag = true ∨ (c4done.streamBuffer = [] ∧ c4done.keyQueue = []) :=
  loop_exit_condition hashLen [] 1 c4done c4done rfl

/-! ### Per-key probe emission (C3) -/

/-- Slot keys of the hash table are pairwise distinct (true of every
Python dict, maintained by `htUpd`/`htDel`). -/
def keysNodup (t : HTable) : Prop := (t.map Prod.fst).Nodup

/-- No stream tuple with key `k` is resident in the slot `k` hashes to. -/
def slotKFree (hash : String → Nat) (k : String) (st : JState) : Prop :=
  ∀ p ∈ (htLookup st.hashTable (hash k % st.hS)).getD [], ¬ strKey p.2 = k

theorem htLookup_none_of_not_mem (t : HTable) (s : Nat)
    (h : s ∉ t.map Prod.fst) : htLookup t s = none := by
  induction t with
  | nil => rfl
  | cons p r ih =>
    obtain ⟨a, b⟩ := p
    simp only [List.map_cons, List.mem_cons] at h
    push_neg at h
    simp only [htLookup, if_neg (Ne.symm h.1)]
    exact ih h.2

theorem map_fst_htUpd_of_lookup (t : HTable) (s : Nat) (l l0 : Bucket)
    (h : htLookup t s = some l0) : (htUpd t s l).map Prod.fst = t.map Prod.fst := by
  induction t with
  | nil => simp [htLookup] at h
  | cons p r ih =>
    obtain ⟨a, b⟩ := p
    by_cases has : a = s
    · subst has
      simp [htUpd]
    · simp only [htLookup, if_neg has] at h
      simp [htUpd, has, ih h]

theorem mem_map_fst_htDel (t : HTable) (s x : Nat)
    (h : x ∈ (htDel t s).map Prod.fst) : x ∈ t.map Prod.fst := by
  induction t with
  | nil => simp [htDel] at h
  | cons p r ih =>
    obtain ⟨a, b⟩ := p
    simp only [List.map_cons, List.mem_cons]
    by_cases has : a = s
    · subst has
      rw [show htDel ((a, b) :: r) a = r from by simp [htDel]] at h
      exact Or.inr h
    · rw [show htDel ((a, b) :: r) s = (a, b) :: htDel r s from by simp [htDel, has]] at h
      simp only [List.map_cons, List.mem_cons] at h
      rcases h with h | h
      · exact Or.inl h
      · exact Or.inr (ih h)

theorem keysNodup_htDel (t : HTable) (s : Nat) (h : keysNodup t) :
    keysNodup (htDel t s) := by
  induction t with
  | nil => simpa [htDel] using h
  | cons p r ih =>
    obtain ⟨a, b⟩ := p
    simp only [keysNodup, List.map_cons, List.nodup_cons] at h
    by_cases has : a = s
    · subst has
      simpa [keysNodup, htDel] using h.2
    · simp only [keysNodup, htDel, if_neg has, List.map_cons, List.nodup_cons]
      refine ⟨fun hmem => h.1 (mem_map_fst_htDel r s a hmem), ih h.2⟩

theorem htLookup_htDel_self (t : HTable) (s : Nat) (h : keysNodup t) :
    htLookup (htDel t s) s = none := by
  induction t with
  | nil => rfl
  | cons p r ih =>
    obtain ⟨a, b⟩ := p
    simp only [keysNodup, List.map_cons, List.nodup_cons] at h
    by_cases has : a = s
    · subst has
      simp only [htDel, if_pos rfl]
      exact htLookup_none_of_not_mem r a h.1
    · simp only [htDel, if_neg has, htLookup, if_neg has]
      exact ih h.2

theorem probeStepD_first (hash : String → Nat) (st : JState) (d : Rec) (k : String)
    (hd : strKey d = k) (hnd : keysNodup st.hashTable) :
    (probeStepD hash st d).2
        = (((htLookup st.hashTable (hash k % st.hS)).getD []).filter
            (fun p => strKey p.2 == k)).length
    ∧ (probeStepD hash st d).1.joinOutput
        = st.joinOutput ++ (((htLookup st.hashTable (hash k % st.hS)).getD []).filter
            (fun p => strKey p.2 == k)).map (fun p => mergeRecord p.2 d)
    ∧ slotKFree hash k (probeStepD hash st d).1
    ∧ keysNodup (probeStepD hash st d).1.hashTable := by
  subst hd
  have hshs : (probeStepD hash st d).1.hS = st.hS := (probeStepD_spec hash st d).2.1
  rcases h : htLookup st.hashTable (hash (strKey d) % st.hS) with _ | lst
  · have e : probeStepD hash st d = (st, 0) := by simp [probeStepD, h]
    refine ⟨?_, ?_, ?_, ?_⟩
    · rw [e]
      try simp
    · rw [e]
      try simp
    · intro p hp
      rw [e] at hp
      simp [h] at hp
    · rw [e]; exact hnd
  · have hknd : keysNodup (htUpd st.hashTable (hash (strKey d) % st.hS)
        (lst.filter (fun p => !(strKey p.2 == strKey d)))) := by
      unfold keysNodup
      rw [map_fst_htUpd_of_lookup st.hashTable (hash (strKey d) % st.hS) _ lst h]
      exact hnd
    have hlkup := htLookup_htUpd_self st.hashTable (hash (strKey d) % st.hS)
      (lst.filter (fun p => !(strKey p.2 == strKey d)))
    have hcnt : (probeStepD hash st d).2
        = (lst.filter (fun p => strKey p.2 == strKey d)).length := by
      simp only [probeStepD, h]
    have hjo : (probeStepD hash st d).1.joinOutput
        = st.joinOutput ++ (lst.filter (fun p => strKey p.2 == strKey d)).map
            (fun p => mergeRecord p.2 d) := by
      simp only [probeStepD, h]
      split <;> split <;> rfl
    have htbl : ((probeStepD hash st d).1.hashTable
          = htDel (htUpd st.hashTable (hash (strKey d) % st.hS)
              (lst.filter (fun p => !(strKey p.2 == strKey d)))) (hash (strKey d) % st.hS))
        ∨ (probeStepD hash st d).1.hashTable
          = htUpd st.hashTable (hash (strKey d) % st.hS)
              (lst.filter (fun p => !(strKey p.2 == strKey d))) := by
      simp only [probeStepD, h]
      split
      next hemp => split <;> exact Or.inl rfl
      next hemp => split <;> exact Or.inr rfl
    refine ⟨?_, ?_, ?_, ?_⟩
    · rw [hcnt]
      rfl
    · rw [hjo]
      rfl
    · intro p hp
      rw [hshs] at hp
      rcases htbl with e | e
      · rw [e, htLookup_htDel_self _ _ hknd] at hp
        simp at hp
      · rw [e, hlkup] at hp
        have := (List.mem_filter.mp hp).2
        simpa using this
    · rcases htbl with e | e
      · rw [e]; exact keysNodup_htDel _ _ hknd
      · rw [e]; exact hknd

theorem probeStepD_kfree (hash : String → Nat) (st : JState) (d : Rec) (k : String)
    (hd : strKey d = k) (hfree : slotKFree hash k st) (hnd : keysNodup st.hashTable) :
    (probeStepD hash st d).2 = 0
    ∧ (probeStepD hash st d).1.joinOutput = st.joinOutput
    ∧ slotKFree hash k (probeStepD hash st d).1
    ∧ keysNodup (probeStepD hash st d).1.hashTable := by
  subst hd
  have hshs : (probeStepD hash st d).1.hS = st.hS := (probeStepD_spec hash st d).2.1
  rcases h : htLookup st.hashTable (hash (strKey d) % st.hS) with _ | lst
  · have e : probeStepD hash st d = (st, 0) := by simp [probeStepD, h]
    refine ⟨by rw [e], by rw [e], ?_, by rw [e]; exact hnd⟩
    intro p hp
    rw [e] at hp
    simp [h] at hp
  · have hall : ∀ p ∈ lst, ¬ strKey p.2 = strKey d := by
      intro p hp
      have := hfree p
      rw [h] at this
      exact this (by simpa using hp)
    have hmatched : lst.filter (fun p => strKey p.2 == strKey d) = [] := by
      rw [List.filter_eq_nil_iff]
      intro a ha
      simpa using hall a ha
    have hrest : lst.filter (fun p => !(strKey p.2 == strKey d)) = lst := by
      rw [List.filter_eq_self]
      intro a ha
      simpa using hall a ha
    have hupd : htUpd st.hashTable (hash (strKey d) % st.hS)
        (lst.filter (fun p => !(strKey p.2 == strKey d))) = st.hashTable := by
      rw [hrest]
      exact htUpd_eq_of_lookup _ _ _ h
    have hcnt : (probeStepD hash st d).2
        = (lst.filter (fun p => strKey p.2 == strKey d)).length := by
      simp only [probeStepD, h]
    have hjo : (probeStepD hash st d).1.joinOutput
        = st.joinOutput ++ (lst.filter (fun p => strKey p.2 == strKey d)).map
            (fun p => mergeRecord p.2 d) := by
      simp only [probeStepD, h]
      split <;> split <;> rfl
    have htbl : ((probeStepD hash st d).1.hashTable
          = htDel (htUpd st.hashTable (hash (strKey d) % st.hS)
              (lst.filter (fun p => !(strKey p.2 == strKey d)))) (hash (strKey d) % st.hS))
        ∨ (probeStepD hash st d).1.hashTable
          = htUpd st.hashTable (hash (strKey d) % st.hS)
              (lst.filter (fun p => !(strKey p.2 == strKey d))) := by
      simp only [probeStepD, h]
      split
      next hemp => split <;> exact Or.inl rfl
      next hemp => split <;> exact Or.inr rfl
    refine ⟨by rw [hcnt, hmatched]; try rfl, by rw [hjo, hmatched]; try simp, ?_, ?_⟩
    · intro p hp
      rw [hshs] at hp
      rcases htbl with e | e
      · rw [e] at hp
        rw [htLookup_htDel_self _ _ (by rw [hupd]; exact hnd)] at hp
        simp at hp
      · rw [e, hupd] at hp
        exact hfree p hp
    · rcases htbl with e | e
      · rw [e]
        exact keysNodup_htDel _ _ (by rw [hupd]; exact hnd)
      · rw [e, hupd]
        exact hnd

theorem probeLoop_kfree (hash : String → Nat) (k : String) :
    ∀ (ds : List Rec) (st : JState) (m : Nat),
      (∀ r ∈ ds, strKey r = k) → slotKFree hash k st → keysNodup st.hashTable →
      (probeLoop hash ds st m).2 = m
      ∧ (probeLoop hash ds st m).1.joinOutput = st.joinOutput := by
  intro ds
  induction ds with
  | nil => intro st m _ _ _; exact ⟨rfl, rfl⟩
  | cons d ds ih =>
    intro st m hks hfree hnd
    have hd : strKey d = k := hks d (List.mem_cons_self d ds)
    obtain ⟨s1, s2, s3, s4⟩ := probeStepD_kfree hash st d k hd hfree hnd
    obtain ⟨i1, i2⟩ := ih (probeStepD hash st d).1 (m + (probeStepD hash st d).2)
      (fun r hr => hks r (List.mem_cons_of_mem d hr)) s3 s4
    simp only [probeLoop]
    refine ⟨?_, ?_⟩
    · rw [i1, s1]
      omega
    · rw [i2, s2]

/-- Disk partition with two records for key `A` against the two resident
`A` tuples of the loaded scenario state. -/
def c3st : JState := { c2loaded with diskBuffer := [dA, dA2] }

/-- C3 counterexample: with two partition records and two resident
stream tuples all sharing key `A`, one probe emits two JoinedRecords,
not four: the matched tuples are evicted inside the loop over the disk
buffer, so the second partition record finds nothing.  The single key
makes the run independent of the hash choice. -/
theorem probe_pairwise_emission_cex :
    (probe_and_join hashLen c3st).1.joinOutput.length = 2
    ∧ ¬ (probe_and_join hashLen c3st).1.joinOutput.length = 4 := by
  refine ⟨rfl, by decide⟩

/-- C3 amended: in a probe over a partition whose records all carry the
same key (as the partition loader produces), the number of emissions
equals the number of stream tuples with that key resident in the
hashed slot, and every JoinedRecord pairs such a tuple with the FIRST
partition record only — later records with the same key find the slot
already evicted and emit nothing. -/
theorem probe_emission_per_key (hash : String → Nat) (st : JState) (k : String)
    (d : Rec) (ds : List Rec)
    (hdb : st.diskBuffer = d :: ds)
    (hkeys : ∀ r ∈ st.diskBuffer, strKey r = k)
    (hnd : keysNodup st.hashTable) :
    (probe_and_join hash st).2
        = (((htLookup st.hashTable (hash k % st.hS)).getD []).filter
            (fun p => strKey p.2 == k)).length
    ∧ (probe_and_join hash st).1.joinOutput
        = st.joinOutput ++ (((htLookup st.hashTable (hash k % st.hS)).getD []).filter
            (fun p => strKey p.2 == k)).map (fun p => mergeRecord p.2 d) := by
  have hd : strKey d = k := hkeys d (by rw [hdb]; exact List.mem_cons_self d ds)
  have hds : ∀ r ∈ ds, strKey r = k := fun r hr =>
    hkeys r (by rw [hdb]; exact List.mem_cons_of_mem d hr)
  obtain ⟨f1, f2, f3, f4⟩ := probeStepD_first hash st d k hd hnd
  obtain ⟨g1, g2⟩ := probeLoop_kfree hash k ds (probeStepD hash st d).1
    (0 + (probeStepD hash st d).2) hds f3 f4
  constructor
  · show (probeLoop hash st.diskBuffer st 0).2 = _
    rw [hdb]
    simp only [probeLoop]
    rw [g1, f1]
    omega
  · show (probeLoop hash st.diskBuffer st 0).1.joinOutput = _
    rw [hdb]
    simp only [probeLoop]
    rw [g2, f2]

/-- C3 witness: the per-key emission law at the concrete loaded state
with two resident `A` tuples and a two-record partition. -/
theorem probe_emission_per_key_witness :
    (probe_and_join hashLen c3st).2
        = (((htLookup c3st.hashTable (hashLen "A" % c3st.hS)).getD []).filter
            (fun p => strKey p.2 == "A")).length
    ∧ (probe_and_join hashLen c3st).1.joinOutput
        = c3st.joinOutput ++ (((htLookup c3st.hashTable (hashLen "A" % c3st.hS)).getD
            []).filter (fun p => strKey p.2 == "A")).map (fun p => mergeRecord p.2 dA) :=
  probe_emission_per_key hashLen c3st "A" dA [dA2] rfl (by decide)
    (by unfold keysNodup; decide)

/-- C10: a stream tuple or relation record whose mapping lacks the
`Customer_ID` field is processed without failure under the empty-string
join key: the load phase admits such a tuple, hashes it into the slot of
`""`, appends `""` to the tracker and counts it processed; the partition
loader collects a field-less record under key `""`; and a probe of such
a record matches a resident field-less tuple and emits their merge. -/
theorem missing_join_key_admitted (hash : String → Nat) (t d : Rec)
    (ht : recLookup t "Customer_ID" = none)
    (hd : recLookup d "Customer_ID" = none) :
    strKey t = ""
    ∧ strKey d = ""
    ∧ (∀ vP : Nat, 0 < vP → partLoop vP "" [d] 0 = [d])
    ∧ (∀ st : JState, st.streamBuffer = [t] → 0 < st.w →
        (load_stream_tuples hash st).2 = 1
        ∧ (load_stream_tuples hash st).1.keyQueue = st.keyQueue ++ [""]
        ∧ htLookup (load_stream_tuples hash st).1.hashTable (hash "" % st.hS)
            = some (((htLookup st.hashTable (hash "" % st.hS)).getD [])
                ++ [(st.nextId, t)])
        ∧ (load_stream_tuples hash st).1.tuplesProcessed = st.tuplesProcessed + 1)
    ∧ (∀ st : JState, ∀ i : Nat,
        htLookup st.hashTable (hash "" % st.hS) = some [(i, t)] →
        (probeStepD hash st d).2 = 1
        ∧ (probeStepD hash st d).1.joinOutput = st.joinOutput ++ [mergeRecord t d]) := by
  have hkt : strKey t = "" := by simp [strKey, ht]
  have hkd : strKey d = "" := by simp [strKey, hd]
  refine ⟨hkt, hkd, ?_, ?_, ?_⟩
  · intro vP hvP
    have hcond : strKey d = "" ∧ 0 < vP := ⟨hkd, hvP⟩
    simp only [partLoop, if_pos hcond]
    split <;> simp [partLoop]
  · intro st hsb hw
    rcases hwv : st.w with _ | b
    · omega
    · have hone : loadLoop hash (b + 1) st 0 =
          ({ st with
            streamBuffer := []
            hashTable := htUpd st.hashTable (hash (strKey t) % st.hS)
              (((htLookup st.hashTable (hash (strKey t) % st.hS)).getD [])
                ++ [(st.nextId, t)])
            keyQueue := st.keyQueue ++ [strKey t]
            keyQueueMap := mapSet st.keyQueueMap (strKey t) t
            tuplesProcessed := st.tuplesProcessed + 1
            nextId := st.nextId + 1 }, 1) := by
        simp only [loadLoop, hsb]
        exact loadLoop_nilBuffer hash b _ 1 rfl
      have e : load_stream_tuples hash st
          = ({ (loadLoop hash st.w st 0).1 with w := 0 }, (loadLoop hash st.w st 0).2) :=
        rfl
      rw [e, hwv, hone]
      refine ⟨rfl, ?_, ?_, rfl⟩
      · show st.keyQueue ++ [strKey t] = st.keyQueue ++ [""]
        rw [hkt]
      · show htLookup (htUpd st.hashTable (hash (strKey t) % st.hS)
            (((htLookup st.hashTable (hash (strKey t) % st.hS)).getD [])
              ++ [(st.nextId, t)])) (hash "" % st.hS)
          = some (((htLookup st.hashTable (hash "" % st.hS)).getD [])
              ++ [(st.nextId, t)])
        rw [hkt]
        exact htLookup_htUpd_self _ _ _
  · intro st i hlk
    have hlk2 : htLookup st.hashTable (hash (strKey d) % st.hS) = some [(i, t)] := by
      rw [hkd]
      exact hlk
    have hmatch : ([(i, t)] : Bucket).filter (fun p => strKey p.2 == strKey d) = [(i, t)] := by
      simp [hkt, hkd]
    constructor
    · have hcnt : (probeStepD hash st d).2
          = (([(i, t)] : Bucket).filter (fun p => strKey p.2 == strKey d)).length := by
        simp only [probeStepD, hlk2]
      rw [hcnt, hmatch]
      rfl
    · have hjo : (probeStepD hash st d).1.joinOutput
          = st.joinOutput ++ (([(i, t)] : Bucket).filter
              (fun p => strKey p.2 == strKey d)).map (fun p => mergeRecord p.2 d) := by
        simp only [probeStepD, hlk2]
        split <;> split <;> rfl
      rw [hjo, hmatch]
      rfl

/-- Stream tuple with no `Customer_ID` field. -/
def t0 : Rec := [("v", "1")]

/-- Relation record with no `Customer_ID` field. -/
def d0 : Rec := [("u", "2")]

/-- Fresh engine state with the field-less tuple queued. -/
def c10st : JState := { initState 4 2 with streamBuffer := [t0] }

/-- Engine state with the field-less tuple resident under the slot of
the empty key (ghost id 7). -/
def c10probeSt : JState :=
  { initState 4 2 with hashTable := [(hashLen "" % 4, [(7, t0)])] }

/-- C10 witness: the missing-field behaviour at the concrete field-less
tuple and record, with the load, partition and probe conclusions
instantiated at concrete states. -/
theorem missing_join_key_admitted_witness :
    strKey t0 = ""
    ∧ strKey d0 = ""
    ∧ partLoop 2 "" [d0] 0 = [d0]
    ∧ ((load_stream_tuples hashLen c10st).2 = 1
        ∧ (load_stream_tuples hashLen c10st).1.keyQueue = c10st.keyQueue ++ [""]
        ∧ htLookup (load_stream_tuples hashLen c10st).1.hashTable
              (hashLen "" % c10st.hS)
            = some (((htLookup c10st.hashTable (hashLen "" % c10st.hS)).getD [])
                ++ [(c10st.nextId, t0)])
        ∧ (load_stream_tuples hashLen c10st).1.tuplesProcessed
            = c10st.tuplesProcessed + 1)
    ∧ ((probeStepD hashLen c10probeSt d0).2 = 1
        ∧ (probeStepD hashLen c10probeSt d0).1.joinOutput
            = c10probeSt.joinOutput ++ [mergeRecord t0 d0]) := by
  obtain ⟨h1, h2, h3, h4, h5⟩ := missing_join_key_admitted hashLen t0 d0 rfl rfl
  exact ⟨h1, h2, h3 2 (by decide), h4 c10st rfl (by decide), h5 c10probeSt 7 rfl⟩
